import Mathlib

/-
  Verification of `src/OrderedQMap.h` (namespace ActionNet).

  The two containers are shallowly embedded as Lean structures holding the
  two C++ base subobjects:
    * the associative store (`QMap<Key,T>` resp. `QMultiMap<Key,T>`) is a
      `List (Key × V)`.  For the unique-key `QMap` the list has pairwise
      distinct keys and its internal arrangement is irrelevant to every
      observation the claims use (`value`, `size`, key membership); for the
      `QMultiMap` the list is kept most-recently-inserted-first, which is
      exactly the order in which Qt's `QMultiMap` reports equal-key values
      (`value(key)`/`values(key)` return the most recently inserted first).
    * the private `QList<Key>` base (the order sequence) is a `List Key`.

  Qt primitives used by the header are modelled on lists:
    * `QList::value(i)` returns the element or a default-constructed value
      for an out-of-range index;
    * `QList::indexOf` returns the first index or -1;
    * `QList::removeAt(i)` with an out-of-range index (as reached by
      `OrderedQMap::remove` on an absent key, where `i = -1`) is a no-op,
      matching Qt's release-build range guard;
    * `QMap::insert` overwrites the value of an existing key, otherwise adds
      the key; `QMap::value(k)` returns the stored value or a default;
      `QMap::remove` drops the key; `QMultiMap::insert` always adds an item;
      `QMultiMap::replace` replaces the value of the most recently inserted
      item with the key, or inserts when absent; `QMultiMap::remove` drops
      all items with the key and returns how many there were.
-/

set_option linter.unusedSectionVars false

namespace ActionNet

variable {Key V : Type}

/-! ### Qt list primitives (the private `QList<Key>` base) -/

/-- `QList::value(i)`: the element at `i`, or a default-constructed `Key()`
when `i` is out of range. -/
def qlistValue [Inhabited Key] (l : List Key) (i : Int) : Key :=
  if 0 ≤ i ∧ i < l.length then l.getD i.toNat default else default

/-- `QList::indexOf(k)`: index of the first occurrence of `k`, or `-1`. -/
def qlistIndexOf [DecidableEq Key] (l : List Key) (k : Key) : Int :=
  if k ∈ l then (l.indexOf k : Int) else -1

/-- `QList::removeAt(i)`: remove the element at index `i`; out-of-range
indices (in particular `-1`) leave the list unchanged. -/
def qlistRemoveAt (l : List Key) (i : Int) : List Key :=
  if 0 ≤ i ∧ i < l.length then l.eraseIdx i.toNat else l

/-! ### Qt unique-key map primitives (the `QMap<Key,T>` base) -/

/-- Keys of the store, in store order. -/
def storeKeys (s : List (Key × V)) : List Key := s.map Prod.fst

/-- `QMap::insert(k, v)`: overwrite the value of an existing key, otherwise
add the pair. -/
def storeInsert [DecidableEq Key] (s : List (Key × V)) (k : Key) (v : V) :
    List (Key × V) :=
  if s.any (fun p => p.1 = k) then
    s.map (fun p => if p.1 = k then (k, v) else p)
  else s ++ [(k, v)]

/-- `QMap::value(k, d)`: the stored value of `k` (first matching entry), or
the fallback `d`. -/
def storeValueD [DecidableEq Key] : List (Key × V) → Key → V → V
  | [], _, d => d
  | p :: t, k, d => if p.1 = k then p.2 else storeValueD t k d

/-- `QMap::remove(k)` / the item-dropping part of `QMultiMap::remove(k)`. -/
def storeRemove [DecidableEq Key] (s : List (Key × V)) (k : Key) :
    List (Key × V) :=
  s.filter (fun p => ¬ p.1 = k)

/-- `QMap::operator[]` read through on a missing key: default-construct the
value for the key, leave present keys untouched. -/
def storeSetDefault [DecidableEq Key] [Inhabited V] (s : List (Key × V))
    (k : Key) : List (Key × V) :=
  if s.any (fun p => p.1 = k) then s else s ++ [(k, default)]

/-! ### The unique-key container `OrderedQMap<Key,T>` -/

/-- State of an `ActionNet::OrderedQMap<Key,T>`: the `QMap` base (`store`)
and the private `QList<Key>` base (`order`). -/
structure OrderedQMap (Key V : Type) where
  store : List (Key × V)
  order : List Key
deriving DecidableEq

namespace OrderedQMap

variable [DecidableEq Key] [Inhabited Key] [Inhabited V]

/-- A default-constructed `OrderedQMap`. -/
def empty : OrderedQMap Key V := ⟨[], []⟩

/-- `contains(key)` — membership taken from the order list (`QList::contains`). -/
def contains (m : OrderedQMap Key V) (k : Key) : Bool := m.order.contains k

/-- `insert(key, value)`: `QMap::insert`, then append `key` to the order list
when absent from it. -/
def insert (m : OrderedQMap Key V) (k : Key) (v : V) : OrderedQMap Key V :=
  { store := storeInsert m.store k v
    order := if m.order.contains k then m.order else m.order ++ [k] }

/-- `prepend(key, value)`: `QMap::insert`, then prepend `key` to the order
list when absent from it. -/
def prepend (m : OrderedQMap Key V) (k : Key) (v : V) : OrderedQMap Key V :=
  { store := storeInsert m.store k v
    order := if m.order.contains k then m.order else k :: m.order }

/-- `replaceAt(index, value)`: overwrite the value of the key currently at
`index` (`QList::at` is only defined for a valid index, which the claims
assume). -/
def replaceAt (m : OrderedQMap Key V) (i : Int) (v : V) : OrderedQMap Key V :=
  { store := storeInsert m.store (qlistValue m.order i) v
    order := m.order }

/-- `value(const Key&)`: the stored value, or a default-constructed `T()`. -/
def value (m : OrderedQMap Key V) (k : Key) : V := storeValueD m.store k default

/-- `value(int index)`: `QList::value(index)` followed by `QMap::value`. -/
def valueAt (m : OrderedQMap Key V) (i : Int) : V :=
  m.value (qlistValue m.order i)

/-- `key(index)`: `QList::value(index)`. -/
def key (m : OrderedQMap Key V) (i : Int) : Key := qlistValue m.order i

/-- `remove(key)`: `indexOf` on the order list, `removeAt` that index, drop
the key from the store, return the index. -/
def remove (m : OrderedQMap Key V) (k : Key) : Int × OrderedQMap Key V :=
  let i := qlistIndexOf m.order k
  (i, { store := storeRemove m.store k, order := qlistRemoveAt m.order i })

/-- `removeAt(i)`: read the key at `i` (`key(i)` = `QList::value(i)`), remove
position `i` from the order list and the key from the store. -/
def removeAt (m : OrderedQMap Key V) (i : Int) : OrderedQMap Key V :=
  { store := storeRemove m.store (qlistValue m.order i)
    order := qlistRemoveAt m.order i }

/-- `removeLast()`: `remove` of the last key of the order list (`QList::last`
is only defined on a non-empty list, which the claims assume). -/
def removeLast (m : OrderedQMap Key V) : OrderedQMap Key V :=
  (m.remove (m.order.getLastD default)).2

/-- `isEmpty()` — delegated to `QMap::isEmpty`. -/
def isEmpty (m : OrderedQMap Key V) : Bool := m.store.isEmpty

/-- `size()` — delegated to `QMap::size`. -/
def size (m : OrderedQMap Key V) : Int := (m.store.length : Int)

/-- `keys()` — the order list. -/
def keys (m : OrderedQMap Key V) : List Key := m.order

/-- `keyOrder(key)` — `keys().indexOf(key)`. -/
def keyOrder (m : OrderedQMap Key V) (k : Key) : Int :=
  qlistIndexOf m.order k

/-- `clear()`: empty both structures. -/
def clear (_ : OrderedQMap Key V) : OrderedQMap Key V := ⟨[], []⟩

/-- Fluent `operator()(key, value)` — same updates as `insert`. -/
def fluentInsert (m : OrderedQMap Key V) (k : Key) (v : V) :
    OrderedQMap Key V :=
  { store := storeInsert m.store k v
    order := if m.order.contains k then m.order else m.order ++ [k] }

/-- Mutation through `operator[](key) = v`: `operator[]` appends `key` to the
order list when absent and default-constructs the slot in the store, then the
assignment stores `v`. -/
def bracketAssign (m : OrderedQMap Key V) (k : Key) (v : V) :
    OrderedQMap Key V :=
  { store := storeInsert (storeSetDefault m.store k) k v
    order := if m.order.contains k then m.order else m.order ++ [k] }

/-- `operator<<(QDataStream&, const OrderedQMap&)`: the stream carries the
ordered key list and a `QMap` payload built by replaying the order list
against the live store. -/
def serialize (m : OrderedQMap Key V) : List Key × List (Key × V) :=
  (m.order, m.order.foldl (fun t k => storeInsert t k (m.value k)) [])

/-- `operator>>(QDataStream&, OrderedQMap&)`: read the key list and the
payload, then `insert` each key with the payload's value into the target. -/
def deserialize (stream : List Key × List (Key × V))
    (m : OrderedQMap Key V) : OrderedQMap Key V :=
  stream.1.foldl (fun acc k => acc.insert k (storeValueD stream.2 k default)) m

end OrderedQMap

/-! ### Public mutating calls of `OrderedQMap` as a step system -/

/-- One public mutating call on an `OrderedQMap`. -/
inductive MapOp (Key V : Type) where
  | insert (k : Key) (v : V)
  | prepend (k : Key) (v : V)
  | replaceAt (i : Int) (v : V)
  | remove (k : Key)
  | removeAt (i : Int)
  | removeLast
  | clear
  | fluentInsert (k : Key) (v : V)
  | bracketAssign (k : Key) (v : V)

namespace MapOp

variable [DecidableEq Key] [Inhabited Key] [Inhabited V]

/-- Execute one call. -/
def exec (m : OrderedQMap Key V) : MapOp Key V → OrderedQMap Key V
  | .insert k v => m.insert k v
  | .prepend k v => m.prepend k v
  | .replaceAt i v => m.replaceAt i v
  | .remove k => (m.remove k).2
  | .removeAt i => m.removeAt i
  | .removeLast => m.removeLast
  | .clear => m.clear
  | .fluentInsert k v => m.fluentInsert k v
  | .bracketAssign k v => m.bracketAssign k v

/-- The preconditions the claims put on a call: a valid index for
`replaceAt`/`removeAt`, a present key for `remove`, a non-empty map for
`removeLast`; the remaining calls are unconstrained. -/
def valid (m : OrderedQMap Key V) : MapOp Key V → Bool
  | .replaceAt i _ => decide (0 ≤ i ∧ i < m.order.length)
  | .remove k => m.order.contains k
  | .removeAt i => decide (0 ≤ i ∧ i < m.order.length)
  | .removeLast => ¬ m.isEmpty
  | _ => true

/-- Execute a sequence of calls. -/
def run (m : OrderedQMap Key V) (ops : List (MapOp Key V)) :
    OrderedQMap Key V :=
  ops.foldl exec m

/-- Every call of the sequence is valid in the state it runs from. -/
def validSeq (m : OrderedQMap Key V) : List (MapOp Key V) → Bool
  | [] => true
  | op :: ops => valid m op && validSeq (exec m op) ops

end MapOp

/-- The two-structure consistency invariant of `OrderedQMap`: the order list
has no duplicates, the store's keys are pairwise distinct, and both hold the
same set of keys. -/
structure Wf [DecidableEq Key] (m : OrderedQMap Key V) : Prop where
  nodup_order : m.order.Nodup
  nodup_store : (storeKeys m.store).Nodup
  mem_iff : ∀ k, k ∈ m.order ↔ k ∈ storeKeys m.store

/-! ### The multi-key container `OrderedQMultiMap<Key,T>` -/

/-- The item-replacement part of `QMultiMap::replace` on a store held
most-recently-inserted-first: replace the value of the first (= most
recently inserted) item with the key, or add a fresh item when absent. -/
def mmStoreReplace [DecidableEq Key] :
    List (Key × V) → Key → V → List (Key × V)
  | [], k, v => [(k, v)]
  | p :: rest, k, v =>
      if p.1 = k then (k, v) :: rest else p :: mmStoreReplace rest k v

/-- State of an `ActionNet::OrderedQMultiMap<Key,T>`: the `QMultiMap` base
(`store`, most recently inserted item first) and the private `QList<Key>`
base (`order`). -/
structure OrderedQMultiMap (Key V : Type) where
  store : List (Key × V)
  order : List Key
deriving DecidableEq

namespace OrderedQMultiMap

variable [DecidableEq Key] [Inhabited Key] [Inhabited V]

/-- A default-constructed `OrderedQMultiMap`. -/
def empty : OrderedQMultiMap Key V := ⟨[], []⟩

/-- `contains(key)` — membership taken from the order list. -/
def contains (m : OrderedQMultiMap Key V) (k : Key) : Bool :=
  m.order.contains k

/-- `insert(key, value)`: `QMultiMap::insert` adds a new most-recent item for
`key`; the order list is unconditionally appended to. -/
def insert (m : OrderedQMultiMap Key V) (k : Key) (v : V) :
    OrderedQMultiMap Key V :=
  { store := (k, v) :: m.store, order := m.order ++ [k] }

/-- The values stored for `key`, most recently inserted first
(`QMultiMap::values(key)`). -/
def valuesOf (m : OrderedQMultiMap Key V) (k : Key) : List V :=
  (m.store.filter (fun p => p.1 = k)).map Prod.snd

/-- `value(const Key&)`: the most recently inserted value for `key`, or a
default-constructed `T()`. -/
def value (m : OrderedQMultiMap Key V) (k : Key) : V :=
  (m.valuesOf k).headD default

/-- `count(key)`: number of items stored for `key`. -/
def count (m : OrderedQMultiMap Key V) (k : Key) : Int :=
  ((m.valuesOf k).length : Int)

/-- `replace(key, value)`: append `key` to the order list only when absent
from it, then `QMultiMap::replace` on the store. -/
def replace (m : OrderedQMultiMap Key V) (k : Key) (v : V) :
    OrderedQMultiMap Key V :=
  { store := mmStoreReplace m.store k v
    order := if m.order.contains k then m.order else m.order ++ [k] }

/-- `remove(key)`: `QList::removeAll(key)` on the order list, then
`QMultiMap::remove(key)` whose item count is returned. -/
def remove (m : OrderedQMultiMap Key V) (k : Key) :
    Int × OrderedQMultiMap Key V :=
  (((m.store.filter (fun p => p.1 = k)).length : Int),
   { store := storeRemove m.store k
     order := m.order.filter (fun x => ¬ x = k) })

/-- `keys()` — the order list. -/
def keys (m : OrderedQMultiMap Key V) : List Key := m.order

/-- `size()` — delegated to `QMultiMap::size`. -/
def size (m : OrderedQMultiMap Key V) : Int := (m.store.length : Int)

/-- `operator<<(QDataStream&, const OrderedQMultiMap&)`: the stream carries
the ordered key list and a `QMultiMap` payload built by inserting
`obj.value(k)` — the most recently inserted value for `k` — once per
occurrence of `k` in the order list. -/
def serialize (m : OrderedQMultiMap Key V) : List Key × List (Key × V) :=
  (m.order, m.order.foldl (fun t k => (k, m.value k) :: t) [])

/-- `QMultiMap::value` on a raw payload store. -/
def payloadValue (s : List (Key × V)) (k : Key) : V :=
  (((s.filter (fun p => p.1 = k)).map Prod.snd).headD default)

/-- `operator>>(QDataStream&, OrderedQMultiMap&)`: read the key list and the
payload, then `insert` each key with `tmpMap.value(k)` into the target. -/
def deserialize (stream : List Key × List (Key × V))
    (m : OrderedQMultiMap Key V) : OrderedQMultiMap Key V :=
  stream.1.foldl (fun acc k => acc.insert k (payloadValue stream.2 k)) m

end OrderedQMultiMap

/-! ### Concrete sample containers -/

/-- A small populated `OrderedQMap` (insertion order 3, then 1). -/
def sampleMap : OrderedQMap Nat Int := ⟨[(3, 30), (1, 10)], [3, 1]⟩

/-- A second populated `OrderedQMap` used as a deserialization target. -/
def sampleTarget : OrderedQMap Nat Int := ⟨[(1, 100), (9, 90)], [1, 9]⟩

/-- The multi-map of the spec's concrete scenario: insert (5,1) then (5,2). -/
def sampleMulti : OrderedQMultiMap Nat Int :=
  ((OrderedQMultiMap.empty).insert 5 1).insert 5 2

/-- A sample call sequence exercising every public mutating call. -/
def sampleOps : List (MapOp Nat Int) :=
  [.insert 1 10, .insert 2 20, .prepend 3 30, .bracketAssign 4 40,
   .replaceAt 0 99, .remove 2, .removeAt 0, .fluentInsert 5 50,
   .removeLast, .insert 1 11, .clear, .insert 6 60]

/-! ### Lemmas about the store primitives -/

variable [DecidableEq Key]

theorem any_key_iff (s : List (Key × V)) (k : Key) :
    (s.any (fun p => p.1 = k)) = true ↔ k ∈ storeKeys s := by
  simp [List.any_eq_true, storeKeys, List.mem_map]

theorem storeKeys_overwrite (s : List (Key × V)) (k : Key) (v : V) :
    storeKeys (s.map (fun p => if p.1 = k then (k, v) else p)) = storeKeys s := by
  induction s with
  | nil => rfl
  | cons p t ih =>
    by_cases h : p.1 = k <;> simp_all [storeKeys]

theorem storeKeys_storeInsert (s : List (Key × V)) (k : Key) (v : V) :
    storeKeys (storeInsert s k v) =
      if k ∈ storeKeys s then storeKeys s else storeKeys s ++ [k] := by
  by_cases h : k ∈ storeKeys s
  · rw [storeInsert, if_pos ((any_key_iff s k).mpr h), if_pos h,
      storeKeys_overwrite]
  · rw [storeInsert, if_neg (fun hc => h ((any_key_iff s k).mp hc)), if_neg h]
    simp [storeKeys]

theorem mem_storeKeys_storeInsert {s : List (Key × V)} {k a : Key} {v : V} :
    a ∈ storeKeys (storeInsert s k v) ↔ a ∈ storeKeys s ∨ a = k := by
  rw [storeKeys_storeInsert]
  by_cases h : k ∈ storeKeys s
  · simp only [if_pos h]
    constructor
    · exact Or.inl
    · rintro (ha | rfl)
      · exact ha
      · exact h
  · simp [if_neg h]

theorem nodup_storeKeys_storeInsert {s : List (Key × V)} {k : Key} {v : V}
    (h : (storeKeys s).Nodup) : (storeKeys (storeInsert s k v)).Nodup := by
  rw [storeKeys_storeInsert]
  by_cases hm : k ∈ storeKeys s
  · simpa [if_pos hm] using h
  · simp [if_neg hm, List.nodup_append, h, hm]

theorem storeValueD_of_not_mem {s : List (Key × V)} {a : Key} {d : V}
    (h : a ∉ storeKeys s) : storeValueD s a d = d := by
  induction s with
  | nil => rfl
  | cons p t ih =>
    simp only [storeKeys, List.map_cons, List.mem_cons, not_or] at h
    rw [storeValueD, if_neg (fun he => h.1 he.symm),
      ih (by simpa [storeKeys] using h.2)]

theorem storeValueD_overwrite_ne (t : List (Key × V)) (k a : Key) (v d : V)
    (h : ¬ a = k) :
    storeValueD (t.map (fun q => if q.1 = k then (k, v) else q)) a d =
      storeValueD t a d := by
  induction t with
  | nil => rfl
  | cons q t ih =>
    by_cases hq : q.1 = k
    · rw [List.map_cons, if_pos hq, storeValueD, if_neg (fun he => h he.symm),
        ih, storeValueD, hq, if_neg (fun he => h he.symm)]
    · rw [List.map_cons, if_neg hq, storeValueD, storeValueD, ih]

theorem storeValueD_overwrite_eq (t : List (Key × V)) (k : Key) (v d : V)
    (h : k ∈ storeKeys t) :
    storeValueD (t.map (fun q => if q.1 = k then (k, v) else q)) k d = v := by
  induction t with
  | nil => simp [storeKeys] at h
  | cons q t ih =>
    by_cases hq : q.1 = k
    · rw [List.map_cons, if_pos hq, storeValueD, if_pos rfl]
    · have hm : k ∈ storeKeys t := by
        simp only [storeKeys, List.map_cons, List.mem_cons] at h
        exact h.resolve_left (fun he => hq he.symm)
      rw [List.map_cons, if_neg hq, storeValueD, if_neg hq, ih hm]

theorem storeValueD_append (s t : List (Key × V)) (a : Key) (d : V) :
    storeValueD (s ++ t) a d =
      if a ∈ storeKeys s then storeValueD s a d else storeValueD t a d := by
  induction s with
  | nil => simp [storeKeys, storeValueD]
  | cons p s ih =>
    by_cases hp : p.1 = a
    · simp [storeValueD, hp, storeKeys]
    · have hmem : (a ∈ storeKeys (p :: s)) ↔ a ∈ storeKeys s := by
        simp only [storeKeys, List.map_cons, List.mem_cons]
        exact or_iff_right (fun he => hp he.symm)
      rw [List.cons_append, storeValueD, if_neg hp, ih, storeValueD, if_neg hp]
      by_cases hm : a ∈ storeKeys s
      · rw [if_pos hm, if_pos (hmem.mpr hm)]
      · rw [if_neg hm, if_neg (fun hc => hm (hmem.mp hc))]

theorem storeValueD_storeInsert (s : List (Key × V)) (k a : Key) (v d : V) :
    storeValueD (storeInsert s k v) a d =
      if a = k then v else storeValueD s a d := by
  by_cases hm : k ∈ storeKeys s
  · rw [storeInsert, if_pos ((any_key_iff s k).mpr hm)]
    by_cases ha : a = k
    · subst ha; rw [if_pos rfl, storeValueD_overwrite_eq s a v d hm]
    · rw [if_neg ha, storeValueD_overwrite_ne s k a v d ha]
  · rw [storeInsert, if_neg (fun hc => hm ((any_key_iff s k).mp hc)),
      storeValueD_append]
    by_cases ha : a ∈ storeKeys s
    · have hak : ¬ a = k := fun he => hm (he ▸ ha)
      rw [if_pos ha, if_neg hak]
    · rw [if_neg ha, storeValueD_of_not_mem ha]
      by_cases hak : a = k
      · subst hak; simp [storeValueD]
      · rw [if_neg hak, storeValueD, if_neg (fun he => hak he.symm)]
        rfl

theorem storeKeys_storeRemove (s : List (Key × V)) (k : Key) :
    storeKeys (storeRemove s k) = (storeKeys s).filter (fun a => ¬ a = k) := by
  induction s with
  | nil => rfl
  | cons p t ih =>
    by_cases hp : p.1 = k <;>
      simp [storeRemove, storeKeys, List.filter_cons, hp] at * <;> simpa using ih

theorem mem_storeKeys_storeRemove {s : List (Key × V)} {k a : Key} :
    a ∈ storeKeys (storeRemove s k) ↔ a ∈ storeKeys s ∧ ¬ a = k := by
  rw [storeKeys_storeRemove]
  simp [List.mem_filter]

theorem nodup_storeKeys_storeRemove {s : List (Key × V)} {k : Key}
    (h : (storeKeys s).Nodup) : (storeKeys (storeRemove s k)).Nodup := by
  rw [storeKeys_storeRemove]
  exact h.filter _

theorem storeRemove_of_not_mem {s : List (Key × V)} {k : Key}
    (h : k ∉ storeKeys s) : storeRemove s k = s := by
  rw [storeRemove, List.filter_eq_self]
  intro p hp
  simp only [decide_eq_true_eq]
  exact fun he => h (List.mem_map.mpr ⟨p, hp, he⟩)

theorem storeKeys_storeSetDefault [Inhabited V] (s : List (Key × V)) (k : Key) :
    storeKeys (storeSetDefault s k) =
      if k ∈ storeKeys s then storeKeys s else storeKeys s ++ [k] := by
  by_cases h : k ∈ storeKeys s
  · rw [storeSetDefault, if_pos ((any_key_iff s k).mpr h), if_pos h]
  · rw [storeSetDefault, if_neg (fun hc => h ((any_key_iff s k).mp hc)), if_neg h]
    simp [storeKeys]

/-! ### Lemmas about the `QList` primitives -/

theorem qlistIndexOf_of_mem {l : List Key} {k : Key} (h : k ∈ l) :
    qlistIndexOf l k = (l.indexOf k : Int) := by
  rw [qlistIndexOf, if_pos h]

theorem qlistIndexOf_of_not_mem {l : List Key} {k : Key} (h : k ∉ l) :
    qlistIndexOf l k = -1 := by
  rw [qlistIndexOf, if_neg h]

theorem qlistRemoveAt_qlistIndexOf {l : List Key} {k : Key} (h : k ∈ l) :
    qlistRemoveAt l (qlistIndexOf l k) = l.erase k := by
  rw [qlistIndexOf_of_mem h, qlistRemoveAt, if_pos, Int.toNat_natCast]
  · exact List.eraseIdx_indexOf_eq_erase k l
  · refine ⟨Int.natCast_nonneg _, ?_⟩
    exact_mod_cast List.indexOf_lt_length.mpr h

omit [DecidableEq Key] in
theorem qlistRemoveAt_neg_one (l : List Key) : qlistRemoveAt l (-1) = l := by
  rw [qlistRemoveAt, if_neg]
  rintro ⟨h0, _⟩
  omega

omit [DecidableEq Key] in
theorem qlistValue_of_valid [Inhabited Key] {l : List Key} {i : Int}
    (h0 : 0 ≤ i) (h1 : i < l.length) :
    qlistValue l i = l.getD i.toNat default := by
  rw [qlistValue, if_pos ⟨h0, h1⟩]

omit [DecidableEq Key] in
theorem qlistValue_mem [Inhabited Key] {l : List Key} {i : Int}
    (h0 : 0 ≤ i) (h1 : i < l.length) : qlistValue l i ∈ l := by
  rw [qlistValue_of_valid h0 h1]
  have hn : i.toNat < l.length := by omega
  rw [List.getD_eq_getElem l default hn]
  exact l.getElem_mem hn

omit [DecidableEq Key] in
theorem qlistValue_of_invalid [Inhabited Key] {l : List Key} {i : Int}
    (h : ¬ (0 ≤ i ∧ i < l.length)) : qlistValue l i = default := by
  rw [qlistValue, if_neg h]

theorem indexOf_getElem_of_nodup {l : List Key} (hnd : l.Nodup) {n : Nat}
    (hn : n < l.length) : l.indexOf l[n] = n :=
  List.indexOf_getElem hnd n hn

theorem contains_iff {l : List Key} {k : Key} : l.contains k = true ↔ k ∈ l := by
  simp

/-! ### Preservation of the `OrderedQMap` invariant -/

variable [Inhabited Key] [Inhabited V]

theorem wf_empty : Wf (OrderedQMap.empty : OrderedQMap Key V) :=
  ⟨List.nodup_nil, List.nodup_nil, fun k => by simp [OrderedQMap.empty, storeKeys]⟩

theorem Wf.length_eq {m : OrderedQMap Key V} (h : Wf m) :
    m.order.length = m.store.length := by
  have hperm : m.order.Perm (storeKeys m.store) :=
    (List.perm_ext_iff_of_nodup h.nodup_order h.nodup_store).mpr h.mem_iff
  simpa [storeKeys] using hperm.length_eq

theorem insert_order (m : OrderedQMap Key V) (k : Key) (v : V) :
    (m.insert k v).order = if k ∈ m.order then m.order else m.order ++ [k] := by
  simp only [OrderedQMap.insert]
  by_cases hc : k ∈ m.order <;> simp [hc]

theorem insert_store (m : OrderedQMap Key V) (k : Key) (v : V) :
    (m.insert k v).store = storeInsert m.store k v := rfl

theorem wf_insert {m : OrderedQMap Key V} (h : Wf m) (k : Key) (v : V) :
    Wf (m.insert k v) := by
  have hcs : storeKeys (m.insert k v).store =
      if k ∈ m.order then storeKeys m.store else storeKeys m.store ++ [k] := by
    rw [insert_store, storeKeys_storeInsert]
    by_cases hc : k ∈ m.order
    · rw [if_pos ((h.mem_iff k).mp hc), if_pos hc]
    · rw [if_neg (fun hs => hc ((h.mem_iff k).mpr hs)), if_neg hc]
  by_cases hc : k ∈ m.order
  · rw [if_pos hc] at hcs
    refine ⟨?_, ?_, ?_⟩
    · rw [insert_order, if_pos hc]; exact h.nodup_order
    · rw [hcs]; exact h.nodup_store
    · intro a; rw [insert_order, if_pos hc, hcs]; exact h.mem_iff a
  · rw [if_neg hc] at hcs
    have hks : k ∉ storeKeys m.store := fun hs => hc ((h.mem_iff k).mpr hs)
    refine ⟨?_, ?_, ?_⟩
    · rw [insert_order, if_neg hc]
      simp [List.nodup_append, h.nodup_order, hc]
    · rw [hcs]
      simp [List.nodup_append, h.nodup_store, hks]
    · intro a
      rw [insert_order, if_neg hc, hcs]
      simp [List.mem_append, h.mem_iff a]

theorem prepend_order (m : OrderedQMap Key V) (k : Key) (v : V) :
    (m.prepend k v).order = if k ∈ m.order then m.order else k :: m.order := by
  simp only [OrderedQMap.prepend]
  by_cases hc : k ∈ m.order <;> simp [hc]

theorem wf_prepend {m : OrderedQMap Key V} (h : Wf m) (k : Key) (v : V) :
    Wf (m.prepend k v) := by
  have hcs : storeKeys (m.prepend k v).store =
      if k ∈ m.order then storeKeys m.store else storeKeys m.store ++ [k] := by
    show storeKeys (storeInsert m.store k v) = _
    rw [storeKeys_storeInsert]
    by_cases hc : k ∈ m.order
    · rw [if_pos ((h.mem_iff k).mp hc), if_pos hc]
    · rw [if_neg (fun hs => hc ((h.mem_iff k).mpr hs)), if_neg hc]
  by_cases hc : k ∈ m.order
  · rw [if_pos hc] at hcs
    refine ⟨?_, ?_, ?_⟩
    · rw [prepend_order, if_pos hc]; exact h.nodup_order
    · rw [hcs]; exact h.nodup_store
    · intro a; rw [prepend_order, if_pos hc, hcs]; exact h.mem_iff a
  · rw [if_neg hc] at hcs
    have hks : k ∉ storeKeys m.store := fun hs => hc ((h.mem_iff k).mpr hs)
    refine ⟨?_, ?_, ?_⟩
    · rw [prepend_order, if_neg hc]
      exact List.Nodup.cons hc h.nodup_order
    · rw [hcs]
      simp [List.nodup_append, h.nodup_store, hks]
    · intro a
      rw [prepend_order, if_neg hc, hcs]
      simp [List.mem_append, List.mem_cons, h.mem_iff a, or_comm]

theorem remove_fst (m : OrderedQMap Key V) (k : Key) :
    (m.remove k).1 = qlistIndexOf m.order k := rfl

theorem remove_store (m : OrderedQMap Key V) (k : Key) :
    (m.remove k).2.store = storeRemove m.store k := rfl

theorem remove_order_of_mem {m : OrderedQMap Key V} {k : Key}
    (hc : k ∈ m.order) : (m.remove k).2.order = m.order.erase k :=
  qlistRemoveAt_qlistIndexOf hc

theorem remove_of_not_mem {m : OrderedQMap Key V} (h : Wf m) {k : Key}
    (hc : k ∉ m.order) : (m.remove k).2 = m := by
  have hks : k ∉ storeKeys m.store := fun hs => hc ((h.mem_iff k).mpr hs)
  show ({ store := storeRemove m.store k
          order := qlistRemoveAt m.order (qlistIndexOf m.order k) } :
      OrderedQMap Key V) = m
  rw [storeRemove_of_not_mem hks, qlistIndexOf_of_not_mem hc,
    qlistRemoveAt_neg_one]

theorem wf_remove {m : OrderedQMap Key V} (h : Wf m) (k : Key) :
    Wf (m.remove k).2 := by
  by_cases hc : k ∈ m.order
  · refine ⟨?_, ?_, ?_⟩
    · rw [remove_order_of_mem hc]; exact h.nodup_order.erase k
    · rw [remove_store]; exact nodup_storeKeys_storeRemove h.nodup_store
    · intro a
      rw [remove_order_of_mem hc, remove_store, h.nodup_order.mem_erase_iff,
        mem_storeKeys_storeRemove]
      constructor
      · rintro ⟨hne, hm2⟩; exact ⟨(h.mem_iff a).mp hm2, hne⟩
      · rintro ⟨hm2, hne⟩; exact ⟨hne, (h.mem_iff a).mpr hm2⟩
  · rw [remove_of_not_mem h hc]; exact h

theorem storeKeys_storeInsert_of_mem {s : List (Key × V)} {k : Key} (v : V)
    (h : k ∈ storeKeys s) : storeKeys (storeInsert s k v) = storeKeys s := by
  rw [storeKeys_storeInsert, if_pos h]

theorem wf_replaceAt {m : OrderedQMap Key V} (h : Wf m) {i : Int}
    (h0 : 0 ≤ i) (h1 : i < m.order.length) (v : V) : Wf (m.replaceAt i v) := by
  have hk : qlistValue m.order i ∈ m.order := qlistValue_mem h0 h1
  have hs : qlistValue m.order i ∈ storeKeys m.store := (h.mem_iff _).mp hk
  refine ⟨h.nodup_order, ?_, ?_⟩
  · show (storeKeys (storeInsert m.store (qlistValue m.order i) v)).Nodup
    rw [storeKeys_storeInsert_of_mem v hs]; exact h.nodup_store
  · intro a
    show a ∈ m.order ↔ a ∈ storeKeys (storeInsert m.store (qlistValue m.order i) v)
    rw [storeKeys_storeInsert_of_mem v hs]; exact h.mem_iff a

theorem removeAt_eq_remove {m : OrderedQMap Key V} (hnd : m.order.Nodup)
    {i : Int} (h0 : 0 ≤ i) (h1 : i < m.order.length) :
    m.removeAt i = (m.remove (qlistValue m.order i)).2 := by
  have hn : i.toNat < m.order.length := by omega
  have hv : qlistValue m.order i = m.order[i.toNat] := by
    rw [qlistValue_of_valid h0 h1, List.getD_eq_getElem _ _ hn]
  have hidx : qlistIndexOf m.order (qlistValue m.order i) = i := by
    rw [qlistIndexOf_of_mem (by rw [hv]; exact m.order.getElem_mem hn), hv,
      indexOf_getElem_of_nodup hnd hn]
    omega
  show ({ store := storeRemove m.store (qlistValue m.order i)
          order := qlistRemoveAt m.order i } : OrderedQMap Key V) =
    ({ store := storeRemove m.store (qlistValue m.order i)
       order := qlistRemoveAt m.order
         (qlistIndexOf m.order (qlistValue m.order i)) } : OrderedQMap Key V)
  rw [hidx]

theorem wf_clear (m : OrderedQMap Key V) : Wf (m.clear) :=
  ⟨List.nodup_nil, List.nodup_nil, fun k => by simp [OrderedQMap.clear, storeKeys]⟩

theorem fluentInsert_eq_insert (m : OrderedQMap Key V) (k : Key) (v : V) :
    m.fluentInsert k v = m.insert k v := rfl

theorem bracketAssign_eq_insert (m : OrderedQMap Key V) (k : Key) (v : V) :
    m.bracketAssign k v = m.insert k v := by
  show ({ store := storeInsert (storeSetDefault m.store k) k v
          order := if m.order.contains k then m.order else m.order ++ [k] } :
      OrderedQMap Key V) =
    ({ store := storeInsert m.store k v
       order := if m.order.contains k then m.order else m.order ++ [k] } :
      OrderedQMap Key V)
  congr 1
  by_cases hm : k ∈ storeKeys m.store
  · rw [storeSetDefault, if_pos ((any_key_iff _ _).mpr hm)]
  · rw [storeSetDefault, if_neg (fun hc => hm ((any_key_iff _ _).mp hc))]
    rw [storeInsert, if_pos (by rw [any_key_iff]; simp [storeKeys])]
    rw [storeInsert, if_neg (fun hc => hm ((any_key_iff _ _).mp hc))]
    rw [List.map_append]
    have hid : ∀ p ∈ m.store, (if p.1 = k then (k, v) else p) = p :=
      fun p hp => if_neg (fun he => hm (List.mem_map.mpr ⟨p, hp, he⟩))
    rw [List.map_congr_left hid]
    simp

theorem wf_exec {m : OrderedQMap Key V} (h : Wf m) {op : MapOp Key V}
    (hv : MapOp.valid m op = true) : Wf (MapOp.exec m op) := by
  cases op with
  | insert k v => exact wf_insert h k v
  | prepend k v => exact wf_prepend h k v
  | replaceAt i v =>
      have hb : 0 ≤ i ∧ i < m.order.length := of_decide_eq_true hv
      exact wf_replaceAt h hb.1 hb.2 v
  | remove k => exact wf_remove h k
  | removeAt i =>
      have hb : 0 ≤ i ∧ i < m.order.length := of_decide_eq_true hv
      show Wf (m.removeAt i)
      rw [removeAt_eq_remove h.nodup_order hb.1 hb.2]
      exact wf_remove h _
  | removeLast => exact wf_remove h _
  | clear => exact wf_clear m
  | fluentInsert k v =>
      show Wf (m.fluentInsert k v)
      rw [fluentInsert_eq_insert]
      exact wf_insert h k v
  | bracketAssign k v =>
      show Wf (m.bracketAssign k v)
      rw [bracketAssign_eq_insert]
      exact wf_insert h k v

theorem wf_run {m : OrderedQMap Key V} (h : Wf m) {ops : List (MapOp Key V)}
    (hv : MapOp.validSeq m ops = true) : Wf (MapOp.run m ops) := by
  induction ops generalizing m with
  | nil => exact h
  | cons op ops ih =>
    rw [MapOp.validSeq, Bool.and_eq_true] at hv
    exact ih (wf_exec h hv.1) hv.2

/-! ### Replaying a key list against a payload (deserialization) -/

theorem value_insert (m : OrderedQMap Key V) (k a : Key) (v : V) :
    (m.insert k v).value a = if a = k then v else m.value a := by
  show storeValueD (storeInsert m.store k v) a default = _
  rw [storeValueD_storeInsert]
  rfl

theorem foldl_insert_order (g : Key → V) (L : List Key)
    (t : OrderedQMap Key V) (hL : L.Nodup) :
    (L.foldl (fun acc k => acc.insert k (g k)) t).order =
      t.order ++ L.filter (fun k => ! t.order.contains k) := by
  induction L generalizing t with
  | nil => simp
  | cons a L ih =>
    obtain ⟨ha, hLnd⟩ := List.nodup_cons.mp hL
    rw [List.foldl_cons, ih _ hLnd, List.filter_cons]
    by_cases hc : a ∈ t.order
    · have hca : (t.order.contains a) = true := contains_iff.mpr hc
      rw [insert_order, if_pos hc]
      simp only [hca, Bool.not_true, Bool.false_eq_true, if_false]
    · have hca : (t.order.contains a) = false :=
        Bool.eq_false_iff.mpr (fun hb => hc (contains_iff.mp hb))
      rw [insert_order, if_neg hc]
      simp only [hca, Bool.not_false, if_true]
      have hpred : ∀ k ∈ L,
          (! (t.order ++ [a]).contains k) = (! t.order.contains k) := by
        intro k hk
        have hne : ¬ a = k := fun he => ha (he ▸ hk)
        have hne2 : ¬ k = a := fun he => hne he.symm
        simp [hne2]
      rw [List.filter_congr hpred, List.append_assoc, List.singleton_append]

theorem foldl_insert_value (g : Key → V) (L : List Key)
    (t : OrderedQMap Key V) (a : Key) :
    (L.foldl (fun acc k => acc.insert k (g k)) t).value a =
      if a ∈ L then g a else t.value a := by
  induction L generalizing t with
  | nil => simp
  | cons b L ih =>
    rw [List.foldl_cons, ih]
    by_cases hL : a ∈ L
    · rw [if_pos hL, if_pos (List.mem_cons.mpr (Or.inr hL))]
    · rw [if_neg hL, value_insert]
      by_cases hab : a = b
      · subst hab
        rw [if_pos rfl, if_pos (List.mem_cons.mpr (Or.inl rfl))]
      · rw [if_neg hab, if_neg (by simp [List.mem_cons, hab, hL])]

theorem foldl_storeInsert_value (f : Key → V) (L : List Key)
    (t : List (Key × V)) (a : Key) (d : V) :
    storeValueD (L.foldl (fun s k => storeInsert s k (f k)) t) a d =
      if a ∈ L then f a else storeValueD t a d := by
  induction L generalizing t with
  | nil => simp
  | cons b L ih =>
    rw [List.foldl_cons, ih]
    by_cases hL : a ∈ L
    · rw [if_pos hL, if_pos (List.mem_cons.mpr (Or.inr hL))]
    · rw [if_neg hL, storeValueD_storeInsert]
      by_cases hab : a = b
      · subst hab
        rw [if_pos rfl, if_pos (List.mem_cons.mpr (Or.inl rfl))]
      · rw [if_neg hab, if_neg (by simp [List.mem_cons, hab, hL])]

theorem serialize_fst (m : OrderedQMap Key V) :
    (OrderedQMap.serialize m).1 = m.order := rfl

theorem serialize_payload_value (m : OrderedQMap Key V) (k : Key) :
    storeValueD (OrderedQMap.serialize m).2 k default =
      if k ∈ m.order then m.value k else default := by
  show storeValueD
      (m.order.foldl (fun t a => storeInsert t a (m.value a)) []) k default = _
  rw [foldl_storeInsert_value (fun a => m.value a) m.order [] k default]
  rfl

/-! ### Lemmas about the multi-map -/

theorem mm_insert_order (m : OrderedQMultiMap Key V) (k : Key) (v : V) :
    (m.insert k v).order = m.order ++ [k] := rfl

theorem mm_valuesOf_insert (m : OrderedQMultiMap Key V) (k a : Key) (v : V) :
    (m.insert k v).valuesOf a =
      if k = a then v :: m.valuesOf a else m.valuesOf a := by
  show (((k, v) :: m.store).filter (fun p => p.1 = a)).map Prod.snd = _
  rw [List.filter_cons]
  by_cases h : k = a <;> simp [h, OrderedQMultiMap.valuesOf]

theorem valuesOf_mmStoreReplace (s : List (Key × V)) (k : Key) (v : V) :
    ((mmStoreReplace s k v).filter (fun p => p.1 = k)).map Prod.snd =
      match (s.filter (fun p => p.1 = k)).map Prod.snd with
      | [] => [v]
      | _ :: rest => v :: rest := by
  induction s with
  | nil => simp [mmStoreReplace]
  | cons p t ih =>
    by_cases hp : p.1 = k
    · simp [mmStoreReplace, hp, List.filter_cons]
    · have hpf : ¬ ((decide (p.1 = k)) = true) := by simp [hp]
      rw [mmStoreReplace, if_neg hp, List.filter_cons, List.filter_cons,
        if_neg hpf, if_neg hpf, ih]

/-! ### The claims -/

/-- C1: after any sequence of public mutating calls (insert, prepend,
replaceAt with a valid index, remove of a present key, removeAt with a valid
index, removeLast on a non-empty map, clear, the fluent call operator and the
bracket-operator inserts) starting from the empty map, the order list and the
store hold the same set of keys, every key appears in the order list exactly
once, and the order list is as long as the store. -/
theorem claim_C1_dual_structure_invariant (ops : List (MapOp Key V))
    (h : MapOp.validSeq OrderedQMap.empty ops = true) :
    (∀ k, k ∈ (MapOp.run OrderedQMap.empty ops).order ↔
        k ∈ storeKeys (MapOp.run OrderedQMap.empty ops).store) ∧
    (MapOp.run OrderedQMap.empty ops).order.Nodup ∧
    ((MapOp.run OrderedQMap.empty ops).order.length : Int) =
      (MapOp.run OrderedQMap.empty ops).size := by
  have hw := wf_run wf_empty h
  exact ⟨hw.mem_iff, hw.nodup_order, by rw [OrderedQMap.size, hw.length_eq]⟩

/-- Witness for C1 at a concrete call sequence. -/
theorem claim_C1_witness :
    MapOp.validSeq (OrderedQMap.empty : OrderedQMap Nat Int) sampleOps
        = true ∧
    (MapOp.run (OrderedQMap.empty : OrderedQMap Nat Int) sampleOps).order.Nodup ∧
    (((MapOp.run (OrderedQMap.empty : OrderedQMap Nat Int)
        sampleOps).order.length : Int) =
      (MapOp.run (OrderedQMap.empty : OrderedQMap Nat Int) sampleOps).size) := by
  have h := claim_C1_dual_structure_invariant sampleOps (by decide)
  exact ⟨by decide, h.2.1, h.2.2⟩

/-- C2: serializing a well-formed `OrderedQMap` and deserializing the stream
into an empty map reproduces the `keys()` sequence and every stored value. -/
theorem claim_C2_roundtrip (m : OrderedQMap Key V) (h : Wf m) :
    (OrderedQMap.deserialize (OrderedQMap.serialize m)
        OrderedQMap.empty).keys = m.keys ∧
    ∀ k ∈ m.keys,
      (OrderedQMap.deserialize (OrderedQMap.serialize m)
          OrderedQMap.empty).value k = m.value k := by
  constructor
  · show (OrderedQMap.deserialize (OrderedQMap.serialize m)
        OrderedQMap.empty).order = m.order
    rw [OrderedQMap.deserialize, serialize_fst,
      foldl_insert_order _ _ _ h.nodup_order]
    simp [OrderedQMap.empty]
  · intro k hk
    rw [OrderedQMap.deserialize, serialize_fst, foldl_insert_value,
      if_pos (show k ∈ m.order from hk), serialize_payload_value,
      if_pos (show k ∈ m.order from hk)]

/-- Witness for C2 on a concrete populated map. -/
theorem claim_C2_witness :
    (OrderedQMap.deserialize (OrderedQMap.serialize sampleMap)
        OrderedQMap.empty).keys = sampleMap.keys ∧
    (OrderedQMap.deserialize (OrderedQMap.serialize sampleMap)
        OrderedQMap.empty).value 3 = sampleMap.value 3 := by
  have h := claim_C2_roundtrip sampleMap ⟨by decide, by decide, fun k => Iff.rfl⟩
  exact ⟨h.1, h.2 3 (by decide)⟩

/-- C4: `remove(key)` on a present key removes it from both structures and
returns its position; on an absent key it returns −1 and changes nothing. -/
theorem claim_C4_remove_semantics (m : OrderedQMap Key V) (k : Key) (h : Wf m) :
    (m.contains k = true →
      (m.remove k).1 = m.keyOrder k ∧ 0 ≤ (m.remove k).1 ∧
      (∀ a, a ∈ (m.remove k).2.order ↔ a ∈ m.order ∧ ¬ a = k) ∧
      (∀ a, a ∈ storeKeys (m.remove k).2.store ↔
          a ∈ storeKeys m.store ∧ ¬ a = k)) ∧
    (m.contains k = false → (m.remove k).1 = -1 ∧ (m.remove k).2 = m) := by
  constructor
  · intro hc
    have hm : k ∈ m.order := contains_iff.mp hc
    refine ⟨rfl, ?_, ?_, ?_⟩
    · rw [remove_fst, qlistIndexOf_of_mem hm]
      exact Int.natCast_nonneg _
    · intro a
      rw [remove_order_of_mem hm, h.nodup_order.mem_erase_iff]
      constructor
      · rintro ⟨hne, hmm⟩; exact ⟨hmm, hne⟩
      · rintro ⟨hmm, hne⟩; exact ⟨hne, hmm⟩
    · intro a
      rw [remove_store]
      exact mem_storeKeys_storeRemove
  · intro hc
    have hm : k ∉ m.order := by
      intro hmm
      have ht : m.contains k = true := contains_iff.mpr hmm
      rw [ht] at hc
      simp at hc
    exact ⟨by rw [remove_fst, qlistIndexOf_of_not_mem hm],
      remove_of_not_mem h hm⟩

/-- Witness for C4: a present key and an absent key on a concrete map. -/
theorem claim_C4_witness :
    (sampleMap.remove 3).1 = sampleMap.keyOrder 3 ∧
    (sampleMap.remove 7).1 = -1 ∧ (sampleMap.remove 7).2 = sampleMap := by
  refine ⟨?_, ?_, ?_⟩
  · exact ((claim_C4_remove_semantics sampleMap 3
      ⟨by decide, by decide, fun k => Iff.rfl⟩).1 (by decide)).1
  · exact ((claim_C4_remove_semantics sampleMap 7
      ⟨by decide, by decide, fun k => Iff.rfl⟩).2 (by decide)).1
  · exact ((claim_C4_remove_semantics sampleMap 7
      ⟨by decide, by decide, fun k => Iff.rfl⟩).2 (by decide)).2

/-- C5: inserting an existing key overwrites its value and leaves the whole
`keys()` sequence, hence the key's position, unchanged. -/
theorem claim_C5_overwrite_stability (m : OrderedQMap Key V) (k : Key) (v : V)
    (h : m.contains k = true) :
    (m.insert k v).keys = m.keys ∧ (m.insert k v).value k = v ∧
    (m.insert k v).keyOrder k = m.keyOrder k := by
  have hm : k ∈ m.order := contains_iff.mp h
  have ho : (m.insert k v).order = m.order := by rw [insert_order, if_pos hm]
  refine ⟨ho, ?_, ?_⟩
  · rw [value_insert, if_pos rfl]
  · show qlistIndexOf (m.insert k v).order k = qlistIndexOf m.order k
    rw [ho]

/-- Witness for C5 on a concrete map. -/
theorem claim_C5_witness :
    (sampleMap.insert 3 99).keys = sampleMap.keys ∧
    (sampleMap.insert 3 99).value 3 = 99 ∧
    (sampleMap.insert 3 99).keyOrder 3 = sampleMap.keyOrder 3 :=
  claim_C5_overwrite_stability sampleMap 3 99 (by decide)

/-- C3: the multi-map round trip is NOT value-faithful.  On the spec's own
scenario — insert (5,1) then (5,2), so the stored value sequence for key 5
is [2, 1] — serializing and deserializing into an empty multi-map keeps the
`keys()` sequence but stores [2, 2] for key 5: the serializer writes
`obj.value(k)` (the most recently inserted value) once per occurrence of `k`
in the order list, so every duplicate occurrence carries the same value. -/
theorem claim_C3_roundtrip_bug :
    sampleMulti.valuesOf 5 = [2, 1] ∧
    (OrderedQMultiMap.deserialize (OrderedQMultiMap.serialize sampleMulti)
        OrderedQMultiMap.empty).keys = sampleMulti.keys ∧
    (OrderedQMultiMap.deserialize (OrderedQMultiMap.serialize sampleMulti)
        OrderedQMultiMap.empty).valuesOf 5 = [2, 2] := by decide

/-- C6: multi-map `insert` always appends to the order list; inserting the
same key twice yields two order entries and both values in the store. -/
theorem claim_C6_multimap_insert (m : OrderedQMultiMap Key V) (k : Key)
    (v₁ v₂ : V) :
    (m.insert k v₁).order = m.order ++ [k] ∧
    ((m.insert k v₁).insert k v₂).order = m.order ++ [k, k] ∧
    v₁ ∈ ((m.insert k v₁).insert k v₂).valuesOf k ∧
    v₂ ∈ ((m.insert k v₁).insert k v₂).valuesOf k := by
  refine ⟨rfl, ?_, ?_, ?_⟩
  · rw [mm_insert_order, mm_insert_order, List.append_assoc]
    rfl
  · rw [mm_valuesOf_insert, if_pos rfl, mm_valuesOf_insert, if_pos rfl]
    exact List.mem_cons.mpr (Or.inr (List.mem_cons.mpr (Or.inl rfl)))
  · rw [mm_valuesOf_insert, if_pos rfl, mm_valuesOf_insert, if_pos rfl]
    exact List.mem_cons.mpr (Or.inl rfl)

/-- C7: multi-map `remove(key)` drops every stored value of the key and every
order occurrence, returning the number of removed values; the spec's concrete
scenario evaluates to (2, empty). -/
theorem claim_C7_multimap_remove (m : OrderedQMultiMap Key V) (k : Key) :
    (m.remove k).1 = ((m.valuesOf k).length : Int) ∧
    (m.remove k).2.valuesOf k = [] ∧
    (∀ a, a ∈ (m.remove k).2.order ↔ a ∈ m.order ∧ ¬ a = k) ∧
    sampleMulti.remove 5 = (2, OrderedQMultiMap.empty) := by
  refine ⟨?_, ?_, ?_, by decide⟩
  · show ((m.store.filter (fun p => p.1 = k)).length : Int) = _
    rw [OrderedQMultiMap.valuesOf, List.length_map]
  · show ((storeRemove m.store k).filter (fun p => p.1 = k)).map Prod.snd = []
    rw [storeRemove, List.filter_filter]
    have hfalse : ∀ p ∈ m.store,
        ((decide (p.1 = k)) && (decide ¬ (p.1 = k))) = false := by
      intro p _
      by_cases hp : p.1 = k <;> simp [hp]
    rw [List.filter_congr hfalse, List.filter_false]
    rfl
  · intro a
    show a ∈ m.order.filter (fun x => ¬ x = k) ↔ _
    simp [List.mem_filter]

/-- C8 counterexample: after inserting (5,1) and (5,2), `replace(5, 99)` does
not replace all stored values for key 5 — the older value 1 survives. -/
theorem claim_C8_counterexample :
    (1 : Int) ∈ (sampleMulti.replace 5 99).valuesOf 5 ∧
    (sampleMulti.replace 5 99).valuesOf 5 ≠ [99] := by decide

/-- C8 (amended): multi-map `replace(key, value)` replaces only the most
recently inserted value stored for the key (older values survive), inserts
the value when the key has none, and appends the key to the order list only
when absent from it. -/
theorem claim_C8_replace_semantics (m : OrderedQMultiMap Key V) (k : Key)
    (v : V) :
    ((m.replace k v).order =
        if m.order.contains k then m.order else m.order ++ [k]) ∧
    (m.order.contains k = true → (m.replace k v).order = m.order) ∧
    (∀ v₀ rest, m.valuesOf k = v₀ :: rest →
        (m.replace k v).valuesOf k = v :: rest) ∧
    (m.valuesOf k = [] → (m.replace k v).valuesOf k = [v]) := by
  refine ⟨rfl, ?_, ?_, ?_⟩
  · intro hc
    show (if m.order.contains k then m.order else m.order ++ [k]) = m.order
    rw [hc]
    rfl
  · intro v₀ rest hv
    show ((mmStoreReplace m.store k v).filter
        (fun p => p.1 = k)).map Prod.snd = v :: rest
    rw [valuesOf_mmStoreReplace,
      show (m.store.filter (fun p => p.1 = k)).map Prod.snd = v₀ :: rest
        from hv]
  · intro hv
    show ((mmStoreReplace m.store k v).filter
        (fun p => p.1 = k)).map Prod.snd = [v]
    rw [valuesOf_mmStoreReplace,
      show (m.store.filter (fun p => p.1 = k)).map Prod.snd = ([] : List V)
        from hv]

/-- Witness for the amended C8 on concrete multi-maps. -/
theorem claim_C8_witness :
    (sampleMulti.replace 5 99).valuesOf 5 = [99, 1] ∧
    ((OrderedQMultiMap.empty : OrderedQMultiMap Nat Int).replace
        5 42).valuesOf 5 = [42] :=
  ⟨(claim_C8_replace_semantics sampleMulti 5 99).2.2.1 2 [1] (by decide),
   (claim_C8_replace_semantics OrderedQMultiMap.empty 5 42).2.2.2 (by decide)⟩

/-- C9 counterexample: if the map binds the default-constructed key (here 0),
`value(index)` on an invalid index returns that binding, not `V()`. -/
theorem claim_C9_counterexample :
    ¬ (0 ≤ (5 : Int) ∧ (5 : Int) <
        ((OrderedQMap.empty : OrderedQMap Nat Int).insert 0 7).order.length) ∧
    ((OrderedQMap.empty : OrderedQMap Nat Int).insert 0 7).valueAt 5 ≠
      (default : Int) := by decide

/-- C9 (amended): `value(index)` never errors — for a valid index it returns
the value bound to the key at that position; for an invalid index it returns
`value(Key())`, which is a default-constructed `V()` whenever the
default-constructed key is not a key of the map. -/
theorem claim_C9_value_at (m : OrderedQMap Key V) (i : Int) :
    (∀ h1 : i.toNat < m.order.length, 0 ≤ i →
        m.valueAt i = m.value (m.order.get ⟨i.toNat, h1⟩)) ∧
    (¬ (0 ≤ i ∧ i < m.order.length) → m.valueAt i = m.value default) ∧
    (¬ (0 ≤ i ∧ i < m.order.length) → (default : Key) ∉ storeKeys m.store →
        m.valueAt i = (default : V)) := by
  refine ⟨?_, ?_, ?_⟩
  · intro h1 h0
    have hlt : i < m.order.length := by omega
    show m.value (qlistValue m.order i) = _
    rw [qlistValue_of_valid h0 hlt, List.getD_eq_getElem _ _ h1]
    rfl
  · intro hinv
    show m.value (qlistValue m.order i) = m.value default
    rw [qlistValue_of_invalid hinv]
  · intro hinv hd
    show m.value (qlistValue m.order i) = default
    rw [qlistValue_of_invalid hinv]
    exact storeValueD_of_not_mem hd

/-- Witness for the amended C9: a valid and an invalid index on a concrete
map that does not bind the default key. -/
theorem claim_C9_witness :
    ((OrderedQMap.empty : OrderedQMap Nat Int).insert 3 30).valueAt 0 = 30 ∧
    ((OrderedQMap.empty : OrderedQMap Nat Int).insert 3 30).valueAt 9 = 0 := by
  constructor
  · have h := (claim_C9_value_at
      ((OrderedQMap.empty : OrderedQMap Nat Int).insert 3 30) 0).1
      (by decide) (by decide)
    rw [h]
    decide
  · have h := (claim_C9_value_at
      ((OrderedQMap.empty : OrderedQMap Nat Int).insert 3 30) 9).2.2
      (by decide) (by decide)
    rw [h]
    decide

/-- C10: deserializing into a non-empty map merges instead of restoring:
pre-existing keys keep their positions (values overwritten by the stream for
streamed keys), keys only in the stream are appended in stream order, and
keys absent from the stream keep their old values. -/
theorem claim_C10_deserialize_merges (m t : OrderedQMap Key V) (h : Wf m) :
    (OrderedQMap.deserialize (OrderedQMap.serialize m) t).keys =
        t.keys ++ m.keys.filter (fun k => ! t.contains k) ∧
    ∀ k, (OrderedQMap.deserialize (OrderedQMap.serialize m) t).value k =
        if m.contains k then m.value k else t.value k := by
  constructor
  · show (OrderedQMap.deserialize (OrderedQMap.serialize m) t).order =
      t.order ++ m.order.filter (fun k => ! t.order.contains k)
    rw [OrderedQMap.deserialize, serialize_fst,
      foldl_insert_order _ _ _ h.nodup_order]
  · intro k
    rw [OrderedQMap.deserialize, serialize_fst, foldl_insert_value]
    by_cases hk : k ∈ m.order
    · rw [if_pos hk, serialize_payload_value, if_pos hk,
        if_pos (show m.contains k = true from contains_iff.mpr hk)]
    · rw [if_neg hk, if_neg]
      intro hb
      exact hk (contains_iff.mp hb)

/-- Witness for C10 on concrete source and target maps. -/
theorem claim_C10_witness :
    (OrderedQMap.deserialize (OrderedQMap.serialize sampleMap)
        sampleTarget).keys = [1, 9, 3] ∧
    (OrderedQMap.deserialize (OrderedQMap.serialize sampleMap)
        sampleTarget).value 1 = 10 ∧
    (OrderedQMap.deserialize (OrderedQMap.serialize sampleMap)
        sampleTarget).value 9 = 90 := by
  have h := claim_C10_deserialize_merges sampleMap sampleTarget
    ⟨by decide, by decide, fun k => Iff.rfl⟩
  refine ⟨?_, ?_, ?_⟩
  · rw [h.1]
    decide
  · rw [h.2 1]
    decide
  · rw [h.2 9]
    decide

end ActionNet
